import Mathlib

/-
Verification of the extended numeric domain, sparse primitives and
numeric-domain abstraction of the Ebi optimisation library.

The Rust sources are shallowly embedded: the `Fraction` scalar of the
`ebi_arithmetic` crate is an exact rational (the library is built for the
exact-arithmetic configuration, where `Fraction` wraps a `malachite`
`Rational`), so it is embedded as Lean's `Rat`; the four-variant enum
`AbnormalFraction` becomes an inductive type, and each Rust `impl` block
becomes a Lean function following the source match arms in order.
Panicking functions are embedded with an `Option` result (`none` = panic),
and fallible (`anyhow::Result`) functions with `Except String`.
-/

namespace Ebi

/-- Embedding of `AbnormalFraction` from src/abnormal_fraction.rs:
a normal exact rational, positive infinity, negative infinity, or NaN. -/
inductive AbnormalFraction where
  | Normal (f : Rat)
  | Infinite
  | NegInfinite
  | NaN
deriving DecidableEq, Repr

namespace AbnormalFraction

/-- Embedding of `Zero::zero` for `AbnormalFraction`. -/
def zero : AbnormalFraction := .Normal 0

/-- Embedding of `One::one` for `AbnormalFraction`. -/
def one : AbnormalFraction := .Normal 1

/-- Embedding of `Zero::is_zero` for `AbnormalFraction`. -/
def is_zero : AbnormalFraction → Bool
  | .Normal f => f == 0
  | .Infinite => false
  | .NegInfinite => false
  | .NaN => false

/-- Embedding of `Add for AbnormalFraction::add` (the diagnostic printing
of the source is dropped; the returned value is the match in the source). -/
def add : AbnormalFraction → AbnormalFraction → AbnormalFraction
  | .Normal f1, .Normal f2 => .Normal (f1 + f2)
  | .Normal _, .Infinite => .Infinite
  | .Normal _, .NegInfinite => .NegInfinite
  | .Infinite, .Normal _ => .Infinite
  | .Infinite, .Infinite => .Infinite
  | .Infinite, .NegInfinite => .NaN
  | .NegInfinite, .Normal _ => .NegInfinite
  | .NegInfinite, .Infinite => .NaN
  | .NegInfinite, .NegInfinite => .NegInfinite
  | _, .NaN => .NaN
  | .NaN, _ => .NaN

/-- Embedding of `AddAssign for AbnormalFraction::add_assign`: the final
value of `self` after `self += rhs`. The source splits on `both_normal`
and otherwise matches, leaving `self` unchanged in the arms with an empty
body. -/
def add_assign : AbnormalFraction → AbnormalFraction → AbnormalFraction
  | .Normal f1, .Normal f2 => .Normal (f1 + f2)
  | .Normal _, .Infinite => .Infinite
  | .Normal _, .NegInfinite => .NegInfinite
  | .Infinite, .Normal _ => .Infinite
  | .Infinite, .Infinite => .Infinite
  | .Infinite, .NegInfinite => .NaN
  | .NegInfinite, .Normal _ => .NegInfinite
  | .NegInfinite, .Infinite => .NaN
  | .NegInfinite, .NegInfinite => .NegInfinite
  | _, .NaN => .NaN
  | .NaN, _ => .NaN

/-- Embedding of `Sub for AbnormalFraction::sub`. -/
def sub : AbnormalFraction → AbnormalFraction → AbnormalFraction
  | .Normal f1, .Normal f2 => .Normal (f1 - f2)
  | .Normal _, .Infinite => .NegInfinite
  | .Normal _, .NegInfinite => .Infinite
  | .Infinite, .Normal _ => .Infinite
  | .Infinite, .Infinite => .NaN
  | .Infinite, .NegInfinite => .Infinite
  | .NegInfinite, .Normal _ => .NegInfinite
  | .NegInfinite, .Infinite => .NegInfinite
  | .NegInfinite, .NegInfinite => .NaN
  | _, .NaN => .NaN
  | .NaN, _ => .NaN

/-- Embedding of `Mul for AbnormalFraction::mul`. The guards
`f.is_positive()` / `f.is_negative()` of the source become nested `if`s
(for an exact rational, `is_positive` is `0 < f` and `is_negative` is
`f < 0`; the remaining case is `f = 0`). -/
def mul : AbnormalFraction → AbnormalFraction → AbnormalFraction
  | .Normal f1, .Normal f2 => .Normal (f1 * f2)
  | .Normal f, .Infinite =>
      if 0 < f then .Infinite else if f < 0 then .NegInfinite else .NaN
  | .Normal f, .NegInfinite =>
      if 0 < f then .NegInfinite else if f < 0 then .Infinite else .NaN
  | .Infinite, .Normal f =>
      if 0 < f then .Infinite else if f < 0 then .NegInfinite else .NaN
  | .Infinite, .Infinite => .Infinite
  | .Infinite, .NegInfinite => .NegInfinite
  | .NegInfinite, .Normal f =>
      if 0 < f then .NegInfinite else if f < 0 then .Infinite else .NaN
  | .NegInfinite, .Infinite => .NegInfinite
  | .NegInfinite, .NegInfinite => .Infinite
  | _, .NaN => .NaN
  | .NaN, _ => .NaN

/-- Embedding of `Div for AbnormalFraction::div`. The source guard
`!f2.is_zero()` on the Normal/Normal arm becomes an `if`, and the
sign guards become nested `if`s as in `mul`. -/
def div : AbnormalFraction → AbnormalFraction → AbnormalFraction
  | .Normal f1, .Normal f2 =>
      if f2 ≠ 0 then .Normal (f1 / f2) else .NaN
  | .Normal _, .Infinite => .Normal 0
  | .Normal _, .NegInfinite => .Normal 0
  | .Infinite, .Normal f =>
      if 0 < f then .Infinite else if f < 0 then .NegInfinite else .NaN
  | .Infinite, .Infinite => .NaN
  | .Infinite, .NegInfinite => .NaN
  | .NegInfinite, .Normal f =>
      if 0 < f then .NegInfinite else if f < 0 then .Infinite else .NaN
  | .NegInfinite, .Infinite => .NaN
  | .NegInfinite, .NegInfinite => .NaN
  | _, .NaN => .NaN
  | .NaN, _ => .NaN

/-- Embedding of `Neg for AbnormalFraction::neg`. -/
def neg : AbnormalFraction → AbnormalFraction
  | .Normal f => .Normal (-f)
  | .Infinite => .NegInfinite
  | .NegInfinite => .Infinite
  | .NaN => .NaN

/-- Embedding of `Signed::abs` for `AbnormalFraction`, exactly as written
in the source: the `Infinite` arm returns `NegInfinite` and the
`NegInfinite` arm returns `Infinite`. -/
def abs : AbnormalFraction → AbnormalFraction
  | .Normal f => .Normal |f|
  | .Infinite => .NegInfinite
  | .NegInfinite => .Infinite
  | .NaN => .NaN

/-- Embedding of `PartialOrd::partial_cmp` for `AbnormalFraction`.
For two exact rationals the inner `Fraction::partial_cmp` is the total
rational comparison, i.e. `some (compare f1 f2)`. -/
def pcmp : AbnormalFraction → AbnormalFraction → Option Ordering
  | .Normal f1, .Normal f2 => some (compare f1 f2)
  | .Normal _, .Infinite => some .lt
  | .Normal _, .NegInfinite => some .gt
  | .Infinite, .Normal _ => some .gt
  | .Infinite, .Infinite => none
  | .Infinite, .NegInfinite => some .gt
  | .NegInfinite, .Normal _ => some .lt
  | .NegInfinite, .Infinite => some .lt
  | .NegInfinite, .NegInfinite => none
  | _, .NaN => none
  | .NaN, _ => none

/-- Embedding of the exact-rational `Fraction`'s `MaybeExact::extract_exact`
(the exact-arithmetic configuration wraps a `Rational` and returns it). -/
def fractionExtractExact (f : Rat) : Except String Rat := .ok f

/-- Embedding of the exact-rational `Fraction`'s `MaybeExact::extract_approx`:
an exact fraction carries no approximate value, so it fails. -/
def fractionExtractApprox (_f : Rat) : Except String Unit :=
  .error "cannot extract an approximate value"

/-- Embedding of `MaybeExact::extract_exact` for `AbnormalFraction`. -/
def extract_exact : AbnormalFraction → Except String Rat
  | .Normal f => fractionExtractExact f
  | .Infinite => .error "cannot extract an exact value"
  | .NegInfinite => .error "cannot extract an exact value"
  | .NaN => .error "cannot extract an exact value"

/-- Embedding of `MaybeExact::extract_approx` for `AbnormalFraction`. -/
def extract_approx : AbnormalFraction → Except String Unit
  | .Normal f => fractionExtractApprox f
  | .Infinite => .error "cannot extract an approximate value"
  | .NegInfinite => .error "cannot extract an approximate value"
  | .NaN => .error "cannot extract an approximate value"

/-- Embedding of `MaybeExact::to_exact` for `AbnormalFraction` (the
by-value variant delegates exactly like `extract_exact`). -/
def to_exact : AbnormalFraction → Except String Rat
  | .Normal f => fractionExtractExact f
  | .Infinite => .error "cannot extract an exact value"
  | .NegInfinite => .error "cannot extract an exact value"
  | .NaN => .error "cannot extract an exact value"

/-- Embedding of `MaybeExact::to_approx` for `AbnormalFraction`. -/
def to_approx : AbnormalFraction → Except String Unit
  | .Normal f => fractionExtractApprox f
  | .Infinite => .error "cannot extract an approximate value"
  | .NegInfinite => .error "cannot extract an approximate value"
  | .NaN => .error "cannot extract an approximate value"

/-- Embedding of the derived `PartialEq`/`Eq` for `AbnormalFraction`:
structural equality of the variants (rational equality under `Normal`). -/
def req : AbnormalFraction → AbnormalFraction → Bool
  | .Normal f1, .Normal f2 => f1 == f2
  | .Infinite, .Infinite => true
  | .NegInfinite, .NegInfinite => true
  | .NaN, .NaN => true
  | _, _ => false

end AbnormalFraction

/-! Embedding of src/network_simplex_value_type.rs. The two capability
traits `MulWithFloat` and `ToBigInt` have one implementation per scalar
type; a panicking implementation is embedded as the constant `none`, a
total one as `some` of its result. The `f64` and `FractionF64` scalars
are idealised as exact rationals (their product in the embedding is the
exact product with the float multiplier); `i64`/`i128`/`Integer` are
embedded as `Int` and `Natural` as `Nat`. -/

namespace NetworkSimplexValueType

/-- Embedding of `MulWithFloat for f64`: `self * rhs`. -/
def f64_mul_with_float (x rhs : Rat) : Option Rat := some (x * rhs)

/-- Embedding of `MulWithFloat for i64`: unconditional panic. -/
def i64_mul_with_float (_x : Int) (_rhs : Rat) : Option Int := none

/-- Embedding of `MulWithFloat for i128`: unconditional panic. -/
def i128_mul_with_float (_x : Int) (_rhs : Rat) : Option Int := none

/-- Embedding of `MulWithFloat for Integer`: unconditional panic. -/
def integer_mul_with_float (_x : Int) (_rhs : Rat) : Option Int := none

/-- Embedding of `MulWithFloat for Natural`: unconditional panic. -/
def natural_mul_with_float (_x : Nat) (_rhs : Rat) : Option Nat := none

/-- Embedding of `MulWithFloat for FractionF64`: `self * *rhs`. -/
def fractionF64_mul_with_float (x rhs : Rat) : Option Rat := some (x * rhs)

/-- Embedding of `ToBigInt for f64`: unconditional panic. -/
def f64_to_big_int (_x : Rat) : Option Int := none

/-- Embedding of `ToBigInt for i64`: `Integer::from(*self)`, the exact value. -/
def i64_to_big_int (x : Int) : Option Int := some x

/-- Embedding of `ToBigInt for i128`: `Integer::from(*self)`, the exact value. -/
def i128_to_big_int (x : Int) : Option Int := some x

/-- Embedding of `ToBigInt for Integer`: `self.clone()`, the same value. -/
def integer_to_big_int (x : Int) : Option Int := some x

/-- Embedding of `ToBigInt for Fraction`: unconditional panic. -/
def fraction_to_big_int (_x : Rat) : Option Int := none

end NetworkSimplexValueType

/-! Theorems about the extended numeric domain. -/

namespace AbnormalFraction

/-- C1: addition on `AbnormalFraction` follows the stated truth table:
Normal+Normal is the exact rational field sum; a finite value plus +∞ is
+∞ and plus −∞ is −∞; (+∞)+(+∞) = +∞; (−∞)+(−∞) = −∞; (+∞)+(−∞) = NaN and
(−∞)+(+∞) = NaN; any NaN operand forces NaN. `add_assign` computes the
same function. -/
theorem add_truth_table :
    (∀ f1 f2 : Rat, add (.Normal f1) (.Normal f2) = .Normal (f1 + f2)) ∧
    (∀ f : Rat, add (.Normal f) .Infinite = .Infinite ∧
       add .Infinite (.Normal f) = .Infinite) ∧
    (∀ f : Rat, add (.Normal f) .NegInfinite = .NegInfinite ∧
       add .NegInfinite (.Normal f) = .NegInfinite) ∧
    add .Infinite .Infinite = .Infinite ∧
    add .NegInfinite .NegInfinite = .NegInfinite ∧
    add .Infinite .NegInfinite = .NaN ∧
    add .NegInfinite .Infinite = .NaN ∧
    (∀ a : AbnormalFraction, add a .NaN = .NaN ∧ add .NaN a = .NaN) ∧
    (∀ a b : AbnormalFraction, add_assign a b = add a b) := by
  refine ⟨fun f1 f2 => rfl, fun f => ⟨rfl, rfl⟩, fun f => ⟨rfl, rfl⟩,
    rfl, rfl, rfl, rfl, fun a => ⟨?_, ?_⟩, fun a b => ?_⟩
  · cases a <;> rfl
  · cases a <;> rfl
  · cases a <;> cases b <;> rfl

/-- C2: the source's `Signed::abs` maps `Infinite` to `NegInfinite`
(while the spec's extended-real convention requires abs(+∞) = +∞); the
other three arms behave as specified: abs(−∞) = +∞, abs(NaN) = NaN, and
abs of a Normal value is the Normal of the rational absolute value. -/
theorem abs_infinite_is_neg_infinite :
    abs .Infinite = .NegInfinite ∧
    abs .NegInfinite = .Infinite ∧
    abs .NaN = .NaN ∧
    (∀ f : Rat, abs (.Normal f) = .Normal |f|) :=
  ⟨rfl, rfl, rfl, fun _ => rfl⟩

/-- C3: division on `AbnormalFraction` follows the stated truth table:
Normal/Normal with nonzero divisor is the exact rational quotient, with a
zero divisor NaN; finite divided by ±∞ is exact zero; ±∞ divided by a
finite value follows the sign-of-finite rule with zero divisor NaN;
±∞ / ±∞ is NaN; any NaN operand yields NaN. -/
theorem div_truth_table :
    (∀ f1 f2 : Rat, f2 ≠ 0 → div (.Normal f1) (.Normal f2) = .Normal (f1 / f2)) ∧
    (∀ f1 : Rat, div (.Normal f1) (.Normal 0) = .NaN) ∧
    (∀ f : Rat, div (.Normal f) .Infinite = .Normal 0 ∧
       div (.Normal f) .NegInfinite = .Normal 0) ∧
    (∀ f : Rat, 0 < f → div .Infinite (.Normal f) = .Infinite ∧
       div .NegInfinite (.Normal f) = .NegInfinite) ∧
    (∀ f : Rat, f < 0 → div .Infinite (.Normal f) = .NegInfinite ∧
       div .NegInfinite (.Normal f) = .Infinite) ∧
    div .Infinite (.Normal 0) = .NaN ∧
    div .NegInfinite (.Normal 0) = .NaN ∧
    div .Infinite .Infinite = .NaN ∧
    div .Infinite .NegInfinite = .NaN ∧
    div .NegInfinite .Infinite = .NaN ∧
    div .NegInfinite .NegInfinite = .NaN ∧
    (∀ a : AbnormalFraction, div a .NaN = .NaN ∧ div .NaN a = .NaN) := by
  refine ⟨fun f1 f2 h => by simp [div, h], fun f1 => by simp [div],
    fun f => ⟨rfl, rfl⟩, fun f h => ?_, fun f h => ?_,
    by simp [div], by simp [div], rfl, rfl, rfl, rfl, fun a => ⟨?_, ?_⟩⟩
  · constructor <;> simp [div, h]
  · constructor <;> simp [div, h, not_lt_of_lt h]
  · cases a <;> rfl
  · cases a <;> rfl

/-- Witness for C3: the division truth table instantiated at concrete
inputs, discharging the nonzero and sign hypotheses. -/
theorem div_truth_table_witness :
    div (.Normal 6) (.Normal 3) = .Normal 2 ∧
    div .Infinite (.Normal 2) = .Infinite ∧
    div .NegInfinite (.Normal (-1)) = .Infinite := by
  obtain ⟨h1, -, -, h4, h5, -⟩ := div_truth_table
  refine ⟨?_, (h4 2 (by norm_num)).1, (h5 (-1) (by norm_num)).2⟩
  rw [h1 6 3 (by norm_num)]
  norm_num

/-- C4: `partial_cmp` returns the rational comparison for two Normal
values, Greater for +∞ against any Normal value or −∞, Less for −∞
against any Normal value or +∞, and None whenever either operand is NaN
as well as for +∞ vs +∞ and −∞ vs −∞. -/
theorem pcmp_truth_table :
    (∀ f1 f2 : Rat, pcmp (.Normal f1) (.Normal f2) = some (compare f1 f2)) ∧
    (∀ f : Rat, pcmp .Infinite (.Normal f) = some .gt) ∧
    pcmp .Infinite .NegInfinite = some .gt ∧
    (∀ f : Rat, pcmp .NegInfinite (.Normal f) = some .lt) ∧
    pcmp .NegInfinite .Infinite = some .lt ∧
    (∀ a : AbnormalFraction, pcmp a .NaN = none ∧ pcmp .NaN a = none) ∧
    pcmp .Infinite .Infinite = none ∧
    pcmp .NegInfinite .NegInfinite = none := by
  refine ⟨fun f1 f2 => rfl, fun f => rfl, rfl, fun f => rfl, rfl,
    fun a => ⟨?_, ?_⟩, rfl, rfl⟩
  · cases a <;> rfl
  · cases a <;> rfl

/-- C5: for finite values, `a + b` is the Normal of the exact rational
sum, `a - a` is zero, `a * 1` is `a`, and `a / a` is one when `a ≠ 0`. -/
theorem finite_field_identities :
    (∀ a b : Rat, add (.Normal a) (.Normal b) = .Normal (a + b)) ∧
    (∀ a : Rat, sub (.Normal a) (.Normal a) = zero) ∧
    (∀ a : Rat, mul (.Normal a) one = .Normal a) ∧
    (∀ a : Rat, a ≠ 0 → div (.Normal a) (.Normal a) = one) := by
  refine ⟨fun a b => rfl, fun a => by simp [sub, zero],
    fun a => by simp [mul, one], fun a h => by simp [div, one, h, div_self h]⟩

/-- Witness for C5: the identities instantiated at a = 2, b = 3. -/
theorem finite_field_identities_witness :
    add (.Normal 2) (.Normal 3) = .Normal 5 ∧
    sub (.Normal 2) (.Normal 2) = zero ∧
    (2 : Rat) ≠ 0 ∧ div (.Normal 2) (.Normal 2) = one := by
  obtain ⟨h1, h2, -, h4⟩ := finite_field_identities
  refine ⟨?_, h2 2, by norm_num, h4 2 (by norm_num)⟩
  rw [h1 2 3]; norm_num

/-- C8: each of `extract_exact`, `extract_approx`, `to_exact`,
`to_approx` returns an error on +∞, −∞, and NaN, and delegates to the
underlying exact fraction on a Normal value. -/
theorem maybe_exact_abnormal_errors :
    (∀ a : AbnormalFraction, a = .Infinite ∨ a = .NegInfinite ∨ a = .NaN →
       (extract_exact a).isOk = false ∧ (extract_approx a).isOk = false ∧
       (to_exact a).isOk = false ∧ (to_approx a).isOk = false) ∧
    (∀ f : Rat, extract_exact (.Normal f) = fractionExtractExact f ∧
       extract_approx (.Normal f) = fractionExtractApprox f ∧
       to_exact (.Normal f) = fractionExtractExact f ∧
       to_approx (.Normal f) = fractionExtractApprox f) := by
  refine ⟨fun a h => ?_, fun f => ⟨rfl, rfl, rfl, rfl⟩⟩
  rcases h with h | h | h <;> subst h <;> exact ⟨rfl, rfl, rfl, rfl⟩

/-- Witness for C8: the extraction functions evaluated on +∞. -/
theorem maybe_exact_abnormal_errors_witness :
    (extract_exact .Infinite).isOk = false ∧
    (extract_approx .Infinite).isOk = false ∧
    (to_exact .Infinite).isOk = false ∧
    (to_approx .Infinite).isOk = false :=
  maybe_exact_abnormal_errors.1 .Infinite (Or.inl rfl)

/-- C10: the derived equality makes each abnormal variant equal to
itself while `partial_cmp` returns None on those same pairs, so there are
values with `a == b` but `partial_cmp a b ≠ some Equal`. -/
theorem req_pcmp_disagree :
    req .Infinite .Infinite = true ∧ pcmp .Infinite .Infinite = none ∧
    req .NegInfinite .NegInfinite = true ∧ pcmp .NegInfinite .NegInfinite = none ∧
    req .NaN .NaN = true ∧ pcmp .NaN .NaN = none ∧
    (∃ a b : AbnormalFraction, req a b = true ∧ pcmp a b ≠ some .eq) :=
  ⟨rfl, rfl, rfl, rfl, rfl, rfl, .Infinite, .Infinite, rfl, by simp [pcmp]⟩

end AbnormalFraction

/-- C9: `mul_with_float` on `f64` and `FractionF64` returns the exact
product with the float multiplier, while on `i64`, `i128`, `Integer` and
`Natural` it panics for every input; `to_big_int` on `i64`, `i128` and
`Integer` returns the same integer value exactly, while on `f64` and
`Fraction` it panics for every input. -/
theorem value_type_contract_table :
    (∀ x rhs : Rat, NetworkSimplexValueType.f64_mul_with_float x rhs = some (x * rhs)) ∧
    (∀ x rhs : Rat,
      NetworkSimplexValueType.fractionF64_mul_with_float x rhs = some (x * rhs)) ∧
    (∀ (x : Int) (rhs : Rat), NetworkSimplexValueType.i64_mul_with_float x rhs = none) ∧
    (∀ (x : Int) (rhs : Rat), NetworkSimplexValueType.i128_mul_with_float x rhs = none) ∧
    (∀ (x : Int) (rhs : Rat), NetworkSimplexValueType.integer_mul_with_float x rhs = none) ∧
    (∀ (x : Nat) (rhs : Rat), NetworkSimplexValueType.natural_mul_with_float x rhs = none) ∧
    (∀ x : Int, NetworkSimplexValueType.i64_to_big_int x = some x) ∧
    (∀ x : Int, NetworkSimplexValueType.i128_to_big_int x = some x) ∧
    (∀ x : Int, NetworkSimplexValueType.integer_to_big_int x = some x) ∧
    (∀ x : Rat, NetworkSimplexValueType.f64_to_big_int x = none) ∧
    (∀ x : Rat, NetworkSimplexValueType.fraction_to_big_int x = none) :=
  ⟨fun _ _ => rfl, fun _ _ => rfl, fun _ _ => rfl, fun _ _ => rfl, fun _ _ => rfl,
   fun _ _ => rfl, fun _ => rfl, fun _ => rfl, fun _ => rfl, fun _ => rfl, fun _ => rfl⟩

/-! Helper lemmas about `List.getD` and `List.set`, used to reason about
the array writes of the sparse containers. -/

theorem getD_set_lt {α : Type _} {l : List α} {i : Nat} (h : i < l.length) (a d : α) :
    (l.set i a).getD i d = a := by
  rw [List.getD_eq_getElem?_getD, List.getElem?_set_eq_of_lt a h]
  rfl

theorem getD_set_same {α : Type _} (l : List α) (i : Nat) (a : α) :
    (l.set i a).getD i a = a := by
  rw [List.getD_eq_getElem?_getD, List.getElem?_set_self']
  cases h : l[i]? <;> rfl

theorem getD_set_ne {α : Type _} (l : List α) {i j : Nat} (h : i ≠ j) (a d : α) :
    (l.set i a).getD j d = l.getD j d := by
  rw [List.getD_eq_getElem?_getD, List.getElem?_set_ne h, ← List.getD_eq_getElem?_getD]

theorem getD_replicate_self {α : Type _} (n i : Nat) (d : α) :
    (List.replicate n d).getD i d = d := by
  rw [List.getD_eq_getElem?_getD, List.getElem?_replicate]
  split <;> rfl

theorem foldl_set_length {α : Type _} (l : List Nat) (x : α) (vs : List α) :
    (l.foldl (fun w i => w.set i x) vs).length = vs.length := by
  induction l generalizing vs with
  | nil => rfl
  | cons i l ih => rw [List.foldl_cons, ih, List.length_set]

theorem foldl_set_getD {α : Type _} (l : List Nat) (x : α) (vs : List α) (j : Nat) :
    (l.foldl (fun w i => w.set i x) vs).getD j x =
      if j ∈ l then x else vs.getD j x := by
  induction l generalizing vs with
  | nil => simp
  | cons i l ih =>
      rw [List.foldl_cons, ih]
      by_cases hl : j ∈ l
      · simp [hl]
      · by_cases hij : j = i
        · subst hij
          rw [if_neg hl, getD_set_same, if_pos (List.mem_cons_self j l)]
        · rw [if_neg hl, getD_set_ne vs (fun h => hij h.symm),
            if_neg (by simp [hij, hl])]

/-! Embedding of `ScatteredVec` from src/linear_programming_sparse.rs: a
dense-length vector of values, a per-index presence flag, and the list of
registered indices. `get_mut` returns a mutable reference after
registering the index; it is embedded as the registration step (`touch`)
followed by an arbitrary write through the reference (`write`). -/

structure ScatteredVec where
  values : List AbnormalFraction
  is_nonzero : List Bool
  nonzero : List Nat
deriving DecidableEq, Repr

namespace ScatteredVec

/-- Embedding of `ScatteredVec::empty`. -/
def empty (n : Nat) : ScatteredVec :=
  ⟨List.replicate n AbnormalFraction.zero, List.replicate n false, []⟩

/-- Embedding of `ScatteredVec::indices`: the registered-index list. -/
def indices (v : ScatteredVec) : List Nat := v.nonzero

/-- Embedding of `ScatteredVec::get`: read the dense value store. -/
def get (v : ScatteredVec) (i : Nat) : AbnormalFraction :=
  v.values.getD i AbnormalFraction.zero

/-- Registration step of `ScatteredVec::get_mut`: `is_nonzero[i]` is set
to `true`, and `i` is pushed onto `nonzero` if the flag was previously
false. -/
def touch (v : ScatteredVec) (i : Nat) : ScatteredVec :=
  { v with is_nonzero := v.is_nonzero.set i true,
           nonzero := if v.is_nonzero.getD i false then v.nonzero else v.nonzero ++ [i] }

/-- A write through the mutable reference returned by `get_mut`. -/
def write (v : ScatteredVec) (i : Nat) (x : AbnormalFraction) : ScatteredVec :=
  { v with values := v.values.set i x }

/-- Embedding of a `get_mut` call followed by a store through the
returned reference. -/
def get_mut_write (v : ScatteredVec) (i : Nat) (x : AbnormalFraction) : ScatteredVec :=
  (v.touch i).write i x

/-- The loop body of `ScatteredVec::clear`: fold over the registered
indices, zeroing the value and flag at each one. -/
def clearPair (v : ScatteredVec) : List AbnormalFraction × List Bool :=
  v.nonzero.foldl
    (fun (p : List AbnormalFraction × List Bool) i =>
      (p.1.set i AbnormalFraction.zero, p.2.set i false))
    (v.values, v.is_nonzero)

/-- Embedding of `ScatteredVec::clear`: reset the value and flag of every
registered index (iterating over `nonzero` only), then empty `nonzero`. -/
def clear (v : ScatteredVec) : ScatteredVec :=
  ⟨v.clearPair.1, v.clearPair.2, []⟩

/-- Embedding of `Vec::resize(n, d)`. -/
def listResize {α : Type _} (l : List α) (n : Nat) (d : α) : List α :=
  l.take n ++ List.replicate (n - l.length) d

/-- Embedding of `ScatteredVec::clear_and_resize`. -/
def clear_and_resize (v : ScatteredVec) (n : Nat) : ScatteredVec :=
  ⟨listResize v.clear.values n AbnormalFraction.zero,
   listResize v.clear.is_nonzero n false, v.clear.nonzero⟩

/-- Embedding of `ScatteredVec::set`: clear, then for each (index, value)
pair mark the flag, push the index, and store the value. -/
def set_from (v : ScatteredVec) (ps : List (Nat × AbnormalFraction)) : ScatteredVec :=
  ps.foldl
    (fun w iv =>
      ⟨w.values.set iv.1 iv.2, w.is_nonzero.set iv.1 true, w.nonzero ++ [iv.1]⟩)
    v.clear

/-- The mutations of the claim: an in-bounds `get_mut` (with a write
through the reference), a wholesale `set`, a `clear`, or a
`clear_and_resize`. -/
inductive SVOp where
  | getMutWrite (i : Nat) (x : AbnormalFraction)
  | setPairs (ps : List (Nat × AbnormalFraction))
  | clearOp
  | resizeOp (n : Nat)
deriving Repr

/-- Apply one mutation. -/
def SVOp.apply (v : ScatteredVec) : SVOp → ScatteredVec
  | .getMutWrite i x => v.get_mut_write i x
  | .setPairs ps => v.set_from ps
  | .clearOp => v.clear
  | .resizeOp n => v.clear_and_resize n

/-- In-bounds side condition of one mutation: `get_mut` indices are below
the dense length, and `set` receives duplicate-free in-bounds pairs. -/
def SVOp.InBoundsFor (v : ScatteredVec) : SVOp → Prop
  | .getMutWrite i _ => i < v.values.length
  | .setPairs ps => (ps.map Prod.fst).Nodup ∧ ∀ p ∈ ps, p.1 < v.values.length
  | .clearOp => True
  | .resizeOp _ => True

/-- Apply a sequence of mutations. -/
def applyOps (v : ScatteredVec) (ops : List SVOp) : ScatteredVec :=
  ops.foldl SVOp.apply v

/-- Each mutation of the sequence is in bounds for the state it is
applied to. -/
def OpsInBounds : ScatteredVec → List SVOp → Prop
  | _, [] => True
  | v, op :: ops => op.InBoundsFor v ∧ OpsInBounds (op.apply v) ops

/-- The representation invariant of the claim: `nonzero` is
duplicate-free and contains exactly the indices whose `is_nonzero` flag
is true, the two dense stores have equal length, and any index holding a
nonzero value is registered. -/
def Inv (v : ScatteredVec) : Prop :=
  v.is_nonzero.length = v.values.length ∧
  v.nonzero.Nodup ∧
  (∀ i, i ∈ v.nonzero ↔ v.is_nonzero.getD i false = true) ∧
  (∀ i, v.get i ≠ AbnormalFraction.zero → i ∈ v.nonzero)

theorem inv_empty (n : Nat) : Inv (empty n) := by
  refine ⟨by simp [empty], List.nodup_nil, fun i => ?_, fun i h => ?_⟩
  · simp [empty, getD_replicate_self]
  · exact absurd (getD_replicate_self n i AbnormalFraction.zero) h

theorem inv_touch {v : ScatteredVec} (hv : Inv v) {i : Nat} (hi : i < v.values.length) :
    Inv (v.touch i) ∧ i ∈ (v.touch i).nonzero ∧ (v.touch i).values = v.values := by
  obtain ⟨hlen, hnd, hiff, hval⟩ := hv
  have hilen : i < v.is_nonzero.length := hlen ▸ hi
  have hlen' : (v.is_nonzero.set i true).length = v.values.length := by
    rw [List.length_set]
    exact hlen
  by_cases hflag : v.is_nonzero.getD i false = true
  · have hmem : i ∈ v.nonzero := (hiff i).mpr hflag
    have htz : v.touch i = ⟨v.values, v.is_nonzero.set i true, v.nonzero⟩ := by
      unfold touch
      rw [hflag]
      simp
    rw [htz]
    refine ⟨⟨hlen', hnd, fun j => ?_, hval⟩, hmem, rfl⟩
    by_cases hj : j = i
    · subst hj
      rw [getD_set_lt hilen]
      simp [hmem]
    · rw [getD_set_ne _ (fun h => hj h.symm)]
      exact hiff j
  · have hnin : i ∉ v.nonzero := fun h => hflag ((hiff i).mp h)
    have hflag' : v.is_nonzero.getD i false = false := by
      revert hflag
      cases v.is_nonzero.getD i false <;> simp
    have htz : v.touch i = ⟨v.values, v.is_nonzero.set i true, v.nonzero ++ [i]⟩ := by
      unfold touch
      rw [hflag']
      simp
    rw [htz]
    refine ⟨⟨hlen', ?_, fun j => ?_, fun j h => ?_⟩,
      List.mem_append_right _ (List.mem_singleton.mpr rfl), rfl⟩
    · exact List.nodup_append.mpr ⟨hnd, List.nodup_singleton i,
        fun a ha hb => hnin (List.mem_singleton.mp hb ▸ ha)⟩
    · rw [List.mem_append, List.mem_singleton]
      by_cases hj : j = i
      · subst hj
        rw [getD_set_lt hilen]
        simp
      · rw [getD_set_ne _ (fun h => hj h.symm)]
        simp [hj, hiff j]
    · exact List.mem_append_left _ (hval j h)

theorem inv_write {v : ScatteredVec} (hv : Inv v) {i : Nat} (hi : i ∈ v.nonzero)
    (x : AbnormalFraction) : Inv (v.write i x) := by
  obtain ⟨hlen, hnd, hiff, hval⟩ := hv
  refine ⟨by simpa [write, List.length_set] using hlen, hnd, hiff, fun j h => ?_⟩
  by_cases hj : j = i
  · subst hj
    exact hi
  · have hh : (v.write i x).get j = v.values.getD j AbnormalFraction.zero := by
      show (v.values.set i x).getD j AbnormalFraction.zero = _
      exact getD_set_ne _ (fun h' => hj h'.symm) _ _
    exact hval j (fun hc => h (hh.trans hc))

theorem inv_get_mut_write {v : ScatteredVec} (hv : Inv v) {i : Nat}
    (hi : i < v.values.length) (x : AbnormalFraction) : Inv (v.get_mut_write i x) := by
  obtain ⟨h1, h2, _⟩ := inv_touch hv hi
  exact inv_write h1 h2 x

theorem foldl_pair_set (l : List Nat) (vs : List AbnormalFraction) (fl : List Bool) :
    l.foldl (fun (p : List AbnormalFraction × List Bool) i =>
      (p.1.set i AbnormalFraction.zero, p.2.set i false)) (vs, fl) =
      (l.foldl (fun w i => w.set i AbnormalFraction.zero) vs,
       l.foldl (fun w i => w.set i false) fl) := by
  induction l generalizing vs fl with
  | nil => rfl
  | cons i l ih => exact ih (vs.set i AbnormalFraction.zero) (fl.set i false)

theorem clear_eq (v : ScatteredVec) :
    v.clear = ⟨v.nonzero.foldl (fun w i => w.set i AbnormalFraction.zero) v.values,
               v.nonzero.foldl (fun w i => w.set i false) v.is_nonzero, []⟩ := by
  rw [clear, clearPair, foldl_pair_set]

theorem clear_nonzero (v : ScatteredVec) : v.clear.nonzero = [] := by
  rw [clear_eq]

theorem clear_values_length (v : ScatteredVec) :
    v.clear.values.length = v.values.length := by
  rw [clear_eq]
  exact foldl_set_length ..

theorem clear_values_getD (v : ScatteredVec) (j : Nat) :
    v.clear.values.getD j AbnormalFraction.zero =
      if j ∈ v.nonzero then AbnormalFraction.zero
      else v.values.getD j AbnormalFraction.zero := by
  rw [clear_eq]
  exact foldl_set_getD ..

theorem clear_flags_getD (v : ScatteredVec) (j : Nat) :
    v.clear.is_nonzero.getD j false =
      if j ∈ v.nonzero then false else v.is_nonzero.getD j false := by
  rw [clear_eq]
  exact foldl_set_getD ..

theorem inv_clear {v : ScatteredVec} (hv : Inv v) :
    Inv v.clear ∧ (∀ j, v.clear.get j = AbnormalFraction.zero) ∧
      (∀ j, v.clear.is_nonzero.getD j false = false) := by
  obtain ⟨hlen, hnd, hiff, hval⟩ := hv
  have hz : ∀ j, v.clear.get j = AbnormalFraction.zero := by
    intro j
    rw [get, clear_values_getD]
    by_cases hj : j ∈ v.nonzero
    · simp [hj]
    · rw [if_neg hj]
      by_contra h
      exact hj (hval j h)
  have hf : ∀ j, v.clear.is_nonzero.getD j false = false := by
    intro j
    rw [clear_flags_getD]
    by_cases hj : j ∈ v.nonzero
    · simp [hj]
    · rw [if_neg hj]
      by_contra h
      exact hj ((hiff j).mpr (by simpa using h))
  refine ⟨⟨?_, ?_, fun i => ?_, fun i h => absurd (hz i) h⟩, hz, hf⟩
  · rw [clear_eq]
    simpa [foldl_set_length] using hlen
  · rw [clear_nonzero]
    exact List.nodup_nil
  · rw [clear_nonzero, hf i]
    simp

theorem clear_untouched (v : ScatteredVec) {j : Nat} (hj : j ∉ v.nonzero) :
    v.clear.get j = v.get j ∧
      v.clear.is_nonzero.getD j false = v.is_nonzero.getD j false := by
  constructor
  · rw [get, clear_values_getD, if_neg hj]
    rfl
  · rw [clear_flags_getD, if_neg hj]

theorem touch_registered (v : ScatteredVec) {i : Nat}
    (h : v.is_nonzero.getD i false = true) : (v.touch i).nonzero = v.nonzero := by
  show (if v.is_nonzero.getD i false then v.nonzero else v.nonzero ++ [i]) = v.nonzero
  rw [h]
  simp

theorem inv_push_fold {v : ScatteredVec} (hv : Inv v) (ps : List (Nat × AbnormalFraction))
    (hnd : (ps.map Prod.fst).Nodup) (hb : ∀ p ∈ ps, p.1 < v.values.length)
    (hdis : ∀ p ∈ ps, p.1 ∉ v.nonzero) :
    Inv (ps.foldl (fun w iv =>
      ⟨w.values.set iv.1 iv.2, w.is_nonzero.set iv.1 true, w.nonzero ++ [iv.1]⟩) v) := by
  induction ps generalizing v with
  | nil => exact hv
  | cons q ps ih =>
      obtain ⟨hlen, hnd', hiff, hval⟩ := hv
      have hq : q.1 < v.values.length := hb q (List.mem_cons_self ..)
      have hqn : q.1 ∉ v.nonzero := hdis q (List.mem_cons_self ..)
      have hqlen : q.1 < v.is_nonzero.length := hlen ▸ hq
      have hwinv : Inv ⟨v.values.set q.1 q.2, v.is_nonzero.set q.1 true,
          v.nonzero ++ [q.1]⟩ := by
        refine ⟨by simp [List.length_set, hlen], ?_, fun j => ?_, fun j h => ?_⟩
        · exact List.nodup_append.mpr ⟨hnd', List.nodup_singleton _,
            fun a ha hb' => hqn (List.mem_singleton.mp hb' ▸ ha)⟩
        · rw [List.mem_append, List.mem_singleton]
          by_cases hj : j = q.1
          · subst hj
            rw [getD_set_lt hqlen]
            simp
          · rw [getD_set_ne _ (fun h => hj h.symm)]
            simp [hj, hiff j]
        · rw [List.mem_append, List.mem_singleton]
          by_cases hj : j = q.1
          · exact Or.inr hj
          · refine Or.inl (hval j ?_)
            have hh : (v.values.set q.1 q.2).getD j AbnormalFraction.zero
                = v.values.getD j AbnormalFraction.zero :=
              getD_set_ne _ (fun h' => hj h'.symm) _ _
            exact fun hc => h (hh.trans hc)
      refine ih hwinv (hnd.of_cons) (fun p hp => ?_) (fun p hp => ?_)
      · simpa [List.length_set] using hb p (List.mem_cons_of_mem _ hp)
      · have hne : p.1 ≠ q.1 := by
          intro h
          have : q.1 ∈ ps.map Prod.fst := h ▸ List.mem_map_of_mem Prod.fst hp
          exact (List.nodup_cons.mp hnd).1 this
        simp only [List.mem_append, List.mem_singleton]
        push_neg
        exact ⟨hdis p (List.mem_cons_of_mem _ hp), hne⟩

theorem inv_set_from {v : ScatteredVec} (hv : Inv v) (ps : List (Nat × AbnormalFraction))
    (hnd : (ps.map Prod.fst).Nodup) (hb : ∀ p ∈ ps, p.1 < v.values.length) :
    Inv (v.set_from ps) := by
  refine inv_push_fold (inv_clear hv).1 ps hnd (fun p hp => ?_) (fun p hp => ?_)
  · rw [clear_values_length]
    exact hb p hp
  · rw [clear_nonzero]
    exact List.not_mem_nil _

theorem listResize_length {α : Type _} (l : List α) (n : Nat) (d : α) :
    (listResize l n d).length = n := by
  rw [listResize, List.length_append, List.length_take, List.length_replicate]
  omega

theorem listResize_getD_default {α : Type _} (l : List α) (n : Nat) (d : α)
    (h : ∀ i, l.getD i d = d) (j : Nat) : (listResize l n d).getD j d = d := by
  rw [listResize, List.getD_eq_getElem?_getD, List.getElem?_append]
  split
  · rw [List.getElem?_take]
    split
    · rw [← List.getD_eq_getElem?_getD]
      exact h j
    · rfl
  · rw [List.getElem?_replicate]
    split <;> rfl

theorem inv_clear_and_resize {v : ScatteredVec} (hv : Inv v) (n : Nat) :
    Inv (v.clear_and_resize n) := by
  obtain ⟨-, hz, hf⟩ := inv_clear hv
  refine ⟨?_, ?_, fun i => ?_, fun i h => ?_⟩
  · show (listResize v.clear.is_nonzero n false).length
        = (listResize v.clear.values n AbnormalFraction.zero).length
    rw [listResize_length, listResize_length]
  · show v.clear.nonzero.Nodup
    rw [clear_nonzero]
    exact List.nodup_nil
  · show i ∈ v.clear.nonzero ↔ (listResize v.clear.is_nonzero n false).getD i false = true
    rw [clear_nonzero, listResize_getD_default _ _ _ hf]
    simp
  · exact absurd (listResize_getD_default _ n _ hz i) h

theorem inv_apply {v : ScatteredVec} (hv : Inv v) {op : SVOp} (hop : op.InBoundsFor v) :
    Inv (op.apply v) := by
  cases op with
  | getMutWrite i x => exact inv_get_mut_write hv hop x
  | setPairs ps => exact inv_set_from hv ps hop.1 hop.2
  | clearOp => exact (inv_clear hv).1
  | resizeOp n => exact inv_clear_and_resize hv n

theorem inv_applyOps {v : ScatteredVec} (hv : Inv v) {ops : List SVOp}
    (hops : OpsInBounds v ops) : Inv (applyOps v ops) := by
  induction ops generalizing v with
  | nil => exact hv
  | cons op ops ih => exact ih (inv_apply hv hops.1) hops.2

/-- C6: starting from `empty` (with `clear_and_resize` also allowed), any
sequence of in-bounds `get_mut` writes, duplicate-free `set`s and
`clear`s maintains the representation invariant `Inv` (the `nonzero` list
holds exactly the indices whose `is_nonzero` flag is true, without
duplicates); after a `clear` the registered-index list is empty and every
position reads as zero; `clear` leaves unregistered positions untouched
(it revisits only `nonzero` entries); and `get_mut` on an
already-registered index leaves `nonzero` unchanged. -/
theorem scattered_vec_state_properties (n : Nat) (ops : List SVOp)
    (hops : OpsInBounds (ScatteredVec.empty n) ops) :
    Inv (applyOps (ScatteredVec.empty n) ops) ∧
    (applyOps (ScatteredVec.empty n) ops).clear.indices = [] ∧
    (∀ i, (applyOps (ScatteredVec.empty n) ops).clear.get i = AbnormalFraction.zero) ∧
    (∀ i, i ∉ (applyOps (ScatteredVec.empty n) ops).nonzero →
      (applyOps (ScatteredVec.empty n) ops).clear.get i
        = (applyOps (ScatteredVec.empty n) ops).get i ∧
      (applyOps (ScatteredVec.empty n) ops).clear.is_nonzero.getD i false
        = (applyOps (ScatteredVec.empty n) ops).is_nonzero.getD i false) ∧
    (∀ i, (applyOps (ScatteredVec.empty n) ops).is_nonzero.getD i false = true →
      ((applyOps (ScatteredVec.empty n) ops).touch i).nonzero
        = (applyOps (ScatteredVec.empty n) ops).nonzero) := by
  have hinv := inv_applyOps (inv_empty n) hops
  obtain ⟨-, hz, -⟩ := inv_clear hinv
  refine ⟨hinv, ?_, hz, fun i hi => clear_untouched _ hi, fun i hi => touch_registered _ hi⟩
  rw [indices, clear_nonzero]

/-- Witness for C6: a length-2 vector with one in-bounds `get_mut` write
satisfies the bounds side condition, and the resulting state satisfies
the invariant. -/
theorem scattered_vec_state_properties_witness :
    OpsInBounds (ScatteredVec.empty 2) [SVOp.getMutWrite 1 AbnormalFraction.one] ∧
    Inv (applyOps (ScatteredVec.empty 2) [SVOp.getMutWrite 1 AbnormalFraction.one]) := by
  have hb : OpsInBounds (ScatteredVec.empty 2) [SVOp.getMutWrite 1 AbnormalFraction.one] := by
    refine ⟨?_, trivial⟩
    show 1 < (ScatteredVec.empty 2).values.length
    simp [ScatteredVec.empty]
  exact ⟨hb, (scattered_vec_state_properties 2 _ hb).1⟩

end ScatteredVec

/-- The slice `[a, b)` of a list, as produced by Rust's `&l[a..b]`. -/
def slice {α : Type _} (a b : Nat) (l : List α) : List α := (l.take b).drop a

/-! Embedding of `SparseMat` from src/linear_programming_sparse.rs: an
unordered sparse matrix stored by columns in compressed form (column
pointers, row indices, values). -/

structure SparseMat where
  n_rows : Nat
  indptr : List Nat
  indices : List Nat
  data : List AbnormalFraction
deriving DecidableEq, Repr

namespace SparseMat

/-- Embedding of `SparseMat::rows`. -/
def rows (m : SparseMat) : Nat := m.n_rows

/-- Embedding of `SparseMat::cols`. -/
def cols (m : SparseMat) : Nat := m.indptr.length - 1

/-- Embedding of `SparseMat::nnz`. -/
def nnz (m : SparseMat) : Nat := m.data.length

/-- Embedding of `SparseMat::col_rows`: the row indices of column `c`. -/
def col_rows (m : SparseMat) (c : Nat) : List Nat :=
  slice (m.indptr.getD c 0) (m.indptr.getD (c + 1) 0) m.indices

/-- Embedding of `SparseMat::col_data`: the values of column `c`. -/
def col_data (m : SparseMat) (c : Nat) : List AbnormalFraction :=
  slice (m.indptr.getD c 0) (m.indptr.getD (c + 1) 0) m.data

/-- Embedding of `SparseMat::col_iter`: the (row, value) pairs of column `c`. -/
def colEntries (m : SparseMat) (c : Nat) : List (Nat × AbnormalFraction) :=
  (m.col_rows c).zip (m.col_data c)

/-- The logical entries of the matrix: (column, row, value) triples, in
physical storage order. -/
def entries (m : SparseMat) : List (Nat × Nat × AbnormalFraction) :=
  (List.range m.cols).flatMap (fun c => (m.colEntries c).map (fun rv => (c, rv.1, rv.2)))

/-- The first loop of `transpose`: count the entries of each destination
row, accumulating into a zeroed pointer array of length `rows + 1`. -/
def countPhase (m : SparseMat) : List Nat :=
  (List.range m.cols).foldl
    (fun p c => (m.col_rows c).foldl (fun p r => p.set r (p.getD r 0 + 1)) p)
    (List.replicate (m.rows + 1) 0)

/-- The second loop of `transpose`: in-place prefix sums over positions
`1 .. len-1`, making each pointer the end of its destination row. -/
def prefixPhase (ptr : List Nat) : List Nat :=
  (List.range' 1 (ptr.length - 1)).foldl
    (fun p r => p.set r (p.getD r 0 + p.getD (r - 1) 0)) ptr

/-- One step of the scatter loop of `transpose`: decrement the pointer of
destination row `rv.1` and write column index `c` and value `rv.2` at the
freed position. -/
def scatterStep (s : List Nat × List Nat × List AbnormalFraction)
    (c : Nat) (rv : Nat × AbnormalFraction) :
    List Nat × List Nat × List AbnormalFraction :=
  ((s.1.set rv.1 (s.1.getD rv.1 0 - 1)),
   s.2.1.set ((s.1.set rv.1 (s.1.getD rv.1 0 - 1)).getD rv.1 0) c,
   s.2.2.set ((s.1.set rv.1 (s.1.getD rv.1 0 - 1)).getD rv.1 0) rv.2)

/-- The third loop of `transpose`: scatter every entry of every column
into its destination row, into zero-initialised output arrays. -/
def scatterPhase (m : SparseMat) (ptr : List Nat) :
    List Nat × List Nat × List AbnormalFraction :=
  (List.range m.cols).foldl
    (fun s c => (m.colEntries c).foldl (fun s rv => scatterStep s c rv) s)
    (ptr, List.replicate m.nnz 0, List.replicate m.nnz AbnormalFraction.zero)

/-- Embedding of `SparseMat::transpose`: count, prefix-sum, scatter, then
set the last pointer to the entry count. -/
def transpose (m : SparseMat) : SparseMat :=
  ⟨m.cols,
   (scatterPhase m (prefixPhase (countPhase m))).1.set
     ((scatterPhase m (prefixPhase (countPhase m))).1.length - 1) m.nnz,
   (scatterPhase m (prefixPhase (countPhase m))).2.1,
   (scatterPhase m (prefixPhase (countPhase m))).2.2⟩

/-- Wellformedness of a matrix whose columns have all been sealed (as
built by `new` and `push`/`seal_column`): the pointer list is nonempty,
starts at 0, is non-decreasing and ends at the entry count; row indices
and values run in parallel; every row index is below `n_rows`. -/
def WF (m : SparseMat) : Prop :=
  m.indptr ≠ [] ∧
  m.indptr.getD 0 0 = 0 ∧
  m.indptr.Chain' (· ≤ ·) ∧
  m.indptr.getD (m.indptr.length - 1) 0 = m.indices.length ∧
  m.indices.length = m.data.length ∧
  ∀ r ∈ m.indices, r < m.n_rows

end SparseMat

/-! Lemmas about slices, folds and row filters, used to verify the
counting-sort transpose. -/

theorem slice_length {α : Type _} (a b : Nat) (l : List α) :
    (slice a b l).length = min b l.length - a := by
  rw [slice, List.length_drop, List.length_take]

theorem slice_nil_of_le {α : Type _} {a b : Nat} (h : b ≤ a) (l : List α) :
    slice a b l = [] := by
  apply List.length_eq_zero.mp
  rw [slice_length]
  omega

theorem slice_sublist {α : Type _} (a b : Nat) (l : List α) :
    (slice a b l).Sublist l :=
  (List.drop_sublist _ _).trans (List.take_sublist _ _)

theorem slice_zero_length {α : Type _} (l : List α) : slice 0 l.length l = l := by
  rw [slice, List.take_length, List.drop_zero]

theorem slice_glue {α : Type _} {a b c : Nat} (hab : a ≤ b) (hbc : b ≤ c) (l : List α) :
    slice a b l ++ slice b c l = slice a c l := by
  rw [slice, slice, slice, List.drop_take, List.drop_take, List.drop_take]
  have hdrop : List.drop b l = List.drop (b - a) (List.drop a l) := by
    rw [List.drop_drop]
    congr 1
    omega
  rw [hdrop, ← List.take_add]
  congr 1
  omega

theorem slice_getElem? {α : Type _} (a b : Nat) (l : List α) (j : Nat) :
    (slice a b l)[j]? = if a + j < b then l[a + j]? else none := by
  rw [slice, List.getElem?_drop, List.getElem?_take]

theorem slice_set_outside {α : Type _} {a b p : Nat} (h : p < a ∨ b ≤ p) (l : List α)
    (x : α) : slice a b (l.set p x) = slice a b l := by
  apply List.ext_getElem?
  intro j
  rw [slice_getElem?, slice_getElem?]
  split
  · exact List.getElem?_set_ne (by omega)
  · rfl

theorem slice_set_cons {α : Type _} {p b : Nat} {l : List α} (hpb : p < b)
    (hpl : p < l.length) (x : α) :
    slice p b (l.set p x) = x :: slice (p + 1) b (l.set p x) := by
  apply List.ext_getElem?
  intro j
  cases j with
  | zero =>
      rw [slice_getElem?, if_pos (by omega), Nat.add_zero,
        List.getElem?_set_eq_of_lt x hpl, List.getElem?_cons_zero]
  | succ j =>
      rw [List.getElem?_cons_succ, slice_getElem?, slice_getElem?]
      have harith : p + (j + 1) = p + 1 + j := by omega
      rw [harith]

theorem foldl_set_length_gen {β : Type _} (l : List β) (g : β → Nat)
    (f : List Nat → β → Nat) (p : List Nat) :
    (l.foldl (fun q e => q.set (g e) (f q e)) p).length = p.length := by
  induction l generalizing p with
  | nil => rfl
  | cons e l ih => rw [List.foldl_cons, ih, List.length_set]

theorem foldl_flatMap {α β γ : Type _} (l : List α) (g : α → List β) (f : γ → β → γ)
    (i : γ) : (l.flatMap g).foldl f i = l.foldl (fun acc a => (g a).foldl f acc) i := by
  induction l generalizing i with
  | nil => rfl
  | cons a l ih => rw [List.flatMap_cons, List.foldl_append, List.foldl_cons, ih]

/-- The entries destined for row `r`, in input order. -/
def rowFilter (E : List (Nat × Nat × AbnormalFraction)) (r : Nat) :
    List (Nat × Nat × AbnormalFraction) :=
  E.filter (fun e => e.2.1 == r)

/-- Cumulative row counts: the end offset of destination row `r` in the
transposed storage. -/
def rowPref (E : List (Nat × Nat × AbnormalFraction)) (r : Nat) : Nat :=
  ∑ j ∈ Finset.range (r + 1), (rowFilter E j).length

theorem rowFilter_append (E F : List (Nat × Nat × AbnormalFraction)) (r : Nat) :
    rowFilter (E ++ F) r = rowFilter E r ++ rowFilter F r := by
  rw [rowFilter, rowFilter, rowFilter, List.filter_append]

theorem rowPref_succ (E : List (Nat × Nat × AbnormalFraction)) (r : Nat) :
    rowPref E (r + 1) = rowPref E r + (rowFilter E (r + 1)).length :=
  Finset.sum_range_succ _ _

theorem counts_le_rowPref (E : List (Nat × Nat × AbnormalFraction)) (r : Nat) :
    (rowFilter E r).length ≤ rowPref E r := by
  rw [rowPref, Finset.sum_range_succ]
  exact Nat.le_add_left _ _

theorem rowPref_mono (E : List (Nat × Nat × AbnormalFraction)) {r s : Nat} (h : r ≤ s) :
    rowPref E r ≤ rowPref E s := by
  rw [rowPref, rowPref]
  exact Finset.sum_le_sum_of_subset (Finset.range_subset.mpr (by omega))

theorem rowPref_add_counts_le (E : List (Nat × Nat × AbnormalFraction)) {r s : Nat}
    (h : r < s) : rowPref E r + (rowFilter E s).length ≤ rowPref E s := by
  have h1 : rowPref E s = rowPref E (s - 1) + (rowFilter E s).length := by
    have hs : s - 1 + 1 = s := by omega
    rw [← hs, rowPref_succ, hs]
  have h2 : rowPref E r ≤ rowPref E (s - 1) := rowPref_mono E (by omega)
  omega

theorem rowFilter_bound_nil (E : List (Nat × Nat × AbnormalFraction)) (R : Nat)
    (h : ∀ e ∈ E, e.2.1 < R) : rowFilter E R = [] := by
  rw [rowFilter, List.filter_eq_nil_iff]
  intro e he
  have := h e he
  simp only [beq_iff_eq]
  omega

theorem length_eq_rowPref (E : List (Nat × Nat × AbnormalFraction)) (R : Nat)
    (h : ∀ e ∈ E, e.2.1 < R) : E.length = rowPref E R := by
  induction E with
  | nil =>
      rw [rowPref]
      simp [rowFilter]
  | cons e E ih =>
      have hR : e.2.1 < R := h e (List.mem_cons_self ..)
      have hlen : ∀ j, (rowFilter (e :: E) j).length =
          (rowFilter E j).length + if e.2.1 = j then 1 else 0 := by
        intro j
        rw [rowFilter, List.filter_cons]
        by_cases hj : e.2.1 = j
        · rw [if_pos (by simp [hj]), if_pos hj, ← rowFilter, List.length_cons]
        · rw [if_neg (by simp [hj]), if_neg hj, ← rowFilter]
          omega
      rw [rowPref]
      simp only [hlen]
      rw [Finset.sum_add_distrib, Finset.sum_ite_eq (Finset.range (R + 1)) e.2.1 (fun _ => 1)]
      rw [if_pos (Finset.mem_range.mpr (by omega))]
      rw [List.length_cons, ih (fun e' he' => h e' (List.mem_cons_of_mem _ he')), rowPref]

theorem getD_of_lt {α : Type _} (l : List α) {i : Nat} (h : i < l.length) (d : α) :
    l.getD i d = l.get ⟨i, h⟩ := by
  rw [List.getD_eq_getElem?_getD, List.getElem?_eq_getElem h]
  rfl

theorem step_mono (f : Nat → Nat) (n : Nat) (h : ∀ i, i < n → f i ≤ f (i + 1)) :
    ∀ i j, i ≤ j → j ≤ n → f i ≤ f j := by
  intro i j hij hjn
  induction j with
  | zero =>
      have hi0 : i = 0 := by omega
      subst hi0
      exact le_refl _
  | succ j ih =>
      by_cases hii : i = j + 1
      · subst hii
        exact le_refl _
      · have h1 : f i ≤ f j := ih (by omega) (by omega)
        have h2 : f j ≤ f (j + 1) := h j (by omega)
        omega

theorem flatMap_slice {α : Type _} (l : List α) (f : Nat → Nat) (n : Nat)
    (hmono : ∀ i, i < n → f i ≤ f (i + 1)) :
    (List.range n).flatMap (fun c => slice (f c) (f (c + 1)) l) = slice (f 0) (f n) l := by
  induction n with
  | zero => rw [List.range_zero, List.flatMap_nil, slice_nil_of_le (le_refl _)]
  | succ n ih =>
      rw [List.range_succ, List.flatMap_append, ih (fun i hi => hmono i (by omega))]
      have hsing : (List.flatMap [n] fun c => slice (f c) (f (c + 1)) l)
          = slice (f n) (f (n + 1)) l := by
        rw [List.flatMap_cons, List.flatMap_nil, List.append_nil]
      rw [hsing]
      exact slice_glue (step_mono f (n + 1) hmono 0 n (by omega) (by omega))
        (hmono n (by omega)) l

theorem count_map_rowFilter (E : List (Nat × Nat × AbnormalFraction)) (r c : Nat)
    (v : AbnormalFraction) :
    ((rowFilter E r).map (fun e => (e.1, e.2.2))).count (c, v) = E.count (c, r, v) := by
  induction E with
  | nil => rfl
  | cons e E ih =>
      obtain ⟨c', r', v'⟩ := e
      rw [rowFilter, List.filter_cons, ← rowFilter]
      by_cases hr : r' = r
      · subst hr
        rw [if_pos (by simp), List.map_cons, List.count_cons, ih, List.count_cons]
        congr 1
        simp [Prod.ext_iff]
      · rw [if_neg (by simp [hr]), ih, List.count_cons, if_neg (by simp [hr])]
        omega

namespace SparseMat

theorem indptr_getD_mono {m : SparseMat} (hm : WF m) {i : Nat}
    (hi : i + 1 < m.indptr.length) :
    m.indptr.getD i 0 ≤ m.indptr.getD (i + 1) 0 := by
  have h := List.chain'_iff_get.mp hm.2.2.1 i (by omega)
  rw [getD_of_lt _ (by omega) 0, getD_of_lt _ hi 0]
  exact h

theorem indptr_length_pos {m : SparseMat} (hm : WF m) : 0 < m.indptr.length :=
  List.length_pos.mpr hm.1

theorem col_rows_concat {m : SparseMat} (hm : WF m) :
    (List.range m.cols).flatMap m.col_rows = m.indices := by
  have hlen1 := indptr_length_pos hm
  have hmono : ∀ i, i < m.cols → m.indptr.getD i 0 ≤ m.indptr.getD (i + 1) 0 := by
    intro i hi
    rw [cols] at hi
    exact indptr_getD_mono hm (by omega)
  have h := flatMap_slice m.indices (fun c => m.indptr.getD c 0) m.cols hmono
  have hcr : m.col_rows
      = fun c => slice (m.indptr.getD c 0) (m.indptr.getD (c + 1) 0) m.indices := rfl
  rw [hcr, h]
  change slice (m.indptr.getD 0 0) (m.indptr.getD m.cols 0) m.indices = m.indices
  rw [hm.2.1]
  have hend : m.indptr.getD m.cols 0 = m.indices.length := by
    rw [cols]
    exact hm.2.2.2.1
  rw [hend, slice]
  rw [List.take_length, List.drop_zero]

theorem col_lengths_eq {m : SparseMat} (hm : m.indices.length = m.data.length)
    (c : Nat) : (m.col_rows c).length = (m.col_data c).length := by
  rw [col_rows, col_data, slice_length, slice_length, hm]

theorem col_rows_eq_map_fst {m : SparseMat} (hm : m.indices.length = m.data.length)
    (c : Nat) : m.col_rows c = (m.colEntries c).map Prod.fst := by
  rw [colEntries, List.map_fst_zip]
  exact le_of_eq (col_lengths_eq hm c)

theorem colEntries_length {m : SparseMat} (hm : m.indices.length = m.data.length)
    (c : Nat) : (m.colEntries c).length = (m.col_rows c).length := by
  rw [colEntries, List.length_zip, col_lengths_eq hm c, Nat.min_self]

theorem entries_length {m : SparseMat} (hm : WF m) : m.entries.length = m.nnz := by
  have h1 : m.entries.length = ((List.range m.cols).flatMap m.col_rows).length := by
    rw [entries, List.length_flatMap, List.length_flatMap]
    congr 1
    apply List.map_congr_left
    intro c _
    simp only [Function.comp_apply]
    rw [List.length_map, colEntries_length hm.2.2.2.2.1 c]
  rw [h1, col_rows_concat hm, nnz, hm.2.2.2.2.1]

theorem mem_entries {m : SparseMat} {e : Nat × Nat × AbnormalFraction}
    (he : e ∈ m.entries) : e.1 < m.cols ∧ e.2.1 ∈ m.indices := by
  rw [entries] at he
  simp only [List.mem_flatMap, List.mem_map, List.mem_range] at he
  obtain ⟨c, hc, rv, hrv, rfl⟩ := he
  obtain ⟨r, v⟩ := rv
  exact ⟨hc, List.Sublist.mem (List.of_mem_zip hrv).1 (slice_sublist ..)⟩

theorem entries_row_lt {m : SparseMat} (hm : WF m) :
    ∀ e ∈ m.entries, e.2.1 < m.rows :=
  fun e he => hm.2.2.2.2.2 _ (mem_entries he).2

theorem bump_fold_length (E : List (Nat × Nat × AbnormalFraction)) (p : List Nat) :
    (E.foldl (fun p e => p.set e.2.1 (p.getD e.2.1 0 + 1)) p).length = p.length := by
  induction E generalizing p with
  | nil => rfl
  | cons e E ih => rw [List.foldl_cons, ih, List.length_set]

theorem bump_fold_getD (E : List (Nat × Nat × AbnormalFraction)) :
    ∀ p : List Nat, (∀ e ∈ E, e.2.1 < p.length) → ∀ r : Nat,
    (E.foldl (fun p e => p.set e.2.1 (p.getD e.2.1 0 + 1)) p).getD r 0 =
      p.getD r 0 + (rowFilter E r).length := by
  induction E with
  | nil =>
      intro p _ r
      rw [List.foldl_nil, rowFilter]
      simp
  | cons e E ih =>
      intro p hp r
      have hlen : e.2.1 < p.length := hp e (List.mem_cons_self ..)
      rw [List.foldl_cons,
        ih _ (fun e' he' => by
          rw [List.length_set]
          exact hp e' (List.mem_cons_of_mem _ he'))]
      have hsplit : (rowFilter (e :: E) r).length
          = (rowFilter E r).length + if e.2.1 = r then 1 else 0 := by
        rw [rowFilter, List.filter_cons]
        by_cases hr : e.2.1 = r
        · rw [if_pos (by simp [hr]), if_pos hr, ← rowFilter, List.length_cons]
        · rw [if_neg (by simp [hr]), if_neg hr, ← rowFilter]
          omega
      rw [hsplit]
      by_cases hr : e.2.1 = r
      · subst hr
        rw [getD_set_lt hlen, if_pos rfl]
        omega
      · rw [getD_set_ne _ hr, if_neg hr]
        omega

theorem countPhase_eq_flat {m : SparseMat} (hm : m.indices.length = m.data.length) :
    countPhase m = m.entries.foldl (fun p e => p.set e.2.1 (p.getD e.2.1 0 + 1))
      (List.replicate (m.rows + 1) 0) := by
  rw [countPhase, entries, foldl_flatMap]
  congr 1
  funext p c
  rw [col_rows_eq_map_fst hm c, List.foldl_map, List.foldl_map]

theorem countPhase_length {m : SparseMat} (hm : m.indices.length = m.data.length) :
    (countPhase m).length = m.rows + 1 := by
  rw [countPhase_eq_flat hm, bump_fold_length, List.length_replicate]

theorem countPhase_getD {m : SparseMat} (hm : WF m) (r : Nat) :
    (countPhase m).getD r 0 = (rowFilter m.entries r).length := by
  rw [countPhase_eq_flat hm.2.2.2.2.1]
  rw [bump_fold_getD m.entries (List.replicate (m.rows + 1) 0) (fun e he => by
    rw [List.length_replicate]
    have := entries_row_lt hm e he
    omega) r]
  rw [getD_replicate_self, Nat.zero_add]

theorem prefix_fold_length (l : List Nat) (p : List Nat) :
    (l.foldl (fun q r => q.set r (q.getD r 0 + q.getD (r - 1) 0)) p).length
      = p.length := by
  induction l generalizing p with
  | nil => rfl
  | cons r l ih => rw [List.foldl_cons, ih, List.length_set]

theorem prefix_fold_getD (cnt : Nat → Nat) :
    ∀ (k s : Nat) (p : List Nat), 1 ≤ s → s + k = p.length →
    (∀ i, i < s → p.getD i 0 = ∑ j ∈ Finset.range (i + 1), cnt j) →
    (∀ i, s ≤ i → i < p.length → p.getD i 0 = cnt i) →
    ∀ i, i < p.length →
      ((List.range' s k).foldl (fun q r => q.set r (q.getD r 0 + q.getD (r - 1) 0)) p).getD i 0
        = ∑ j ∈ Finset.range (i + 1), cnt j := by
  intro k
  induction k with
  | zero =>
      intro s p hs hlen h1 h2 i hi
      rw [List.range'_zero, List.foldl_nil]
      exact h1 i (by omega)
  | succ k ih =>
      intro s p hs hlen h1 h2 i hi
      have hslen : s < p.length := by omega
      have hps : p.getD s 0 = cnt s := h2 s (le_refl s) hslen
      have hps1 : p.getD (s - 1) 0 = ∑ j ∈ Finset.range s, cnt j := by
        have h := h1 (s - 1) (by omega)
        rwa [show s - 1 + 1 = s from by omega] at h
      rw [List.range'_succ, List.foldl_cons]
      refine ih (s + 1) _ (by omega) (by rw [List.length_set]; omega)
        (fun j hj => ?_) (fun j hsj hj => ?_) i (by rw [List.length_set]; omega)
      · by_cases hje : j = s
        · subst hje
          rw [getD_set_lt hslen, hps, hps1, Finset.sum_range_succ, Nat.add_comm]
        · rw [getD_set_ne _ (fun h => hje h.symm)]
          exact h1 j (by omega)
      · rw [List.length_set] at hj
        rw [getD_set_ne _ (by omega)]
        exact h2 j (by omega) hj

theorem prefixPhase_length (ptr : List Nat) : (prefixPhase ptr).length = ptr.length := by
  rw [prefixPhase, prefix_fold_length]

theorem prefixPhase_getD {m : SparseMat} (hm : WF m) (r : Nat) (hr : r < m.rows + 1) :
    (prefixPhase (countPhase m)).getD r 0 = rowPref m.entries r := by
  have hclen := countPhase_length hm.2.2.2.2.1
  rw [prefixPhase, hclen, show m.rows + 1 - 1 = m.rows from by omega]
  exact prefix_fold_getD (fun j => (rowFilter m.entries j).length) m.rows 1
    (countPhase m) (le_refl 1) (by omega)
    (fun i hi => by
      have hi0 : i = 0 := by omega
      subst hi0
      rw [countPhase_getD hm 0, Finset.sum_range_one])
    (fun i _ _ => countPhase_getD hm i)
    r (by omega)

theorem scatter_fold_invariant (R : Nat) (E : List (Nat × Nat × AbnormalFraction))
    (hrows : ∀ e ∈ E, e.2.1 < R) :
    ∀ S P : List (Nat × Nat × AbnormalFraction), E = P ++ S →
    ∀ st : List Nat × List Nat × List AbnormalFraction,
    st.1.length = R + 1 → st.2.1.length = E.length → st.2.2.length = E.length →
    (∀ r, r < R + 1 → st.1.getD r 0 + (rowFilter P r).length = rowPref E r) →
    (∀ r, r < R →
      slice (rowPref E r - (rowFilter P r).length) (rowPref E r) st.2.1
        = ((rowFilter P r).map (fun e => e.1)).reverse ∧
      slice (rowPref E r - (rowFilter P r).length) (rowPref E r) st.2.2
        = ((rowFilter P r).map (fun e => e.2.2)).reverse) →
    ((S.foldl (fun s e => scatterStep s e.1 (e.2.1, e.2.2)) st).1.length = R + 1 ∧
     (S.foldl (fun s e => scatterStep s e.1 (e.2.1, e.2.2)) st).2.1.length = E.length ∧
     (S.foldl (fun s e => scatterStep s e.1 (e.2.1, e.2.2)) st).2.2.length = E.length ∧
     (∀ r, r < R + 1 →
       (S.foldl (fun s e => scatterStep s e.1 (e.2.1, e.2.2)) st).1.getD r 0
         + (rowFilter E r).length = rowPref E r) ∧
     (∀ r, r < R →
       slice (rowPref E r - (rowFilter E r).length) (rowPref E r)
           (S.foldl (fun s e => scatterStep s e.1 (e.2.1, e.2.2)) st).2.1
         = ((rowFilter E r).map (fun e => e.1)).reverse ∧
       slice (rowPref E r - (rowFilter E r).length) (rowPref E r)
           (S.foldl (fun s e => scatterStep s e.1 (e.2.1, e.2.2)) st).2.2
         = ((rowFilter E r).map (fun e => e.2.2)).reverse)) := by
  intro S
  induction S with
  | nil =>
      intro P hPS st h1 h2 h3 hptr hcontent
      rw [List.append_nil] at hPS
      subst hPS
      exact ⟨h1, h2, h3, hptr, hcontent⟩
  | cons e S ih =>
      intro P hPS st h1 h2 h3 hptr hcontent
      rw [List.foldl_cons]
      have heE : e ∈ E := by
        rw [hPS]
        exact List.mem_append_right _ (List.mem_cons_self ..)
      have hrE : e.2.1 < R := hrows e heE
      have hEfilter : ∀ j, rowFilter E j = rowFilter P j ++ rowFilter (e :: S) j := by
        intro j
        rw [hPS, rowFilter_append]
      have hconsF : rowFilter (e :: S) e.2.1 = e :: rowFilter S e.2.1 := by
        rw [rowFilter, List.filter_cons, if_pos (by simp), ← rowFilter]
      have hkPle : ∀ j, (rowFilter P j).length ≤ (rowFilter E j).length := by
        intro j
        rw [hEfilter j, List.length_append]
        omega
      have hsingF : ∀ j, (rowFilter [e] j).length = if e.2.1 = j then 1 else 0 := by
        intro j
        rw [rowFilter, List.filter_cons]
        by_cases h : e.2.1 = j
        · rw [if_pos (by simp [h]), if_pos h]
          rfl
        · rw [if_neg (by simp [h]), if_neg h]
          rfl
      have hPe : ∀ j, (rowFilter (P ++ [e]) j).length
          = (rowFilter P j).length + if e.2.1 = j then 1 else 0 := by
        intro j
        rw [rowFilter_append, List.length_append, hsingF j]
      have hcount : (rowFilter E e.2.1).length
          = (rowFilter P e.2.1).length + 1 + (rowFilter S e.2.1).length := by
        rw [hEfilter e.2.1, hconsF, List.length_append, List.length_cons]
        omega
      have hprefBound : (rowFilter E e.2.1).length ≤ rowPref E e.2.1 :=
        counts_le_rowPref E e.2.1
      have hptr_r := hptr e.2.1 (by omega)
      have hposlt : st.1.getD e.2.1 0 - 1 < rowPref E e.2.1 := by omega
      have hprefle : rowPref E e.2.1 ≤ E.length := by
        rw [length_eq_rowPref E R hrows]
        exact rowPref_mono E (by omega)
      have hposlen : st.1.getD e.2.1 0 - 1 < E.length := by omega
      have hrlen : e.2.1 < st.1.length := by omega
      have hgd : (st.1.set e.2.1 (st.1.getD e.2.1 0 - 1)).getD e.2.1 0
          = st.1.getD e.2.1 0 - 1 := getD_set_lt hrlen _ _
      have hst1 : (scatterStep st e.1 (e.2.1, e.2.2)).1
          = st.1.set e.2.1 (st.1.getD e.2.1 0 - 1) := rfl
      have hst21 : (scatterStep st e.1 (e.2.1, e.2.2)).2.1
          = st.2.1.set (st.1.getD e.2.1 0 - 1) e.1 := by
        show st.2.1.set
          ((st.1.set e.2.1 (st.1.getD e.2.1 0 - 1)).getD e.2.1 0) e.1 = _
        rw [hgd]
      have hst22 : (scatterStep st e.1 (e.2.1, e.2.2)).2.2
          = st.2.2.set (st.1.getD e.2.1 0 - 1) e.2.2 := by
        show st.2.2.set
          ((st.1.set e.2.1 (st.1.getD e.2.1 0 - 1)).getD e.2.1 0) e.2.2 = _
        rw [hgd]
      refine ih (P ++ [e]) (by rw [List.append_assoc]; exact hPS) _ ?_ ?_ ?_ ?_ ?_
      · rw [hst1, List.length_set]
        exact h1
      · rw [hst21, List.length_set]
        exact h2
      · rw [hst22, List.length_set]
        exact h3
      · intro r hr
        rw [hst1, hPe r]
        by_cases hre : e.2.1 = r
        · subst hre
          rw [getD_set_lt hrlen, if_pos rfl]
          omega
        · rw [getD_set_ne _ hre, if_neg hre]
          have := hptr r hr
          omega
      · intro r hr
        by_cases hre : e.2.1 = r
        · subst hre
          have hb : rowPref E e.2.1 - (rowFilter (P ++ [e]) e.2.1).length
              = st.1.getD e.2.1 0 - 1 := by
            rw [hPe e.2.1, if_pos rfl]
            omega
          have hposlen2 : st.1.getD e.2.1 0 - 1 < st.2.1.length := by omega
          have hposlen3 : st.1.getD e.2.1 0 - 1 < st.2.2.length := by omega
          have hsucc : st.1.getD e.2.1 0 - 1 + 1
              = rowPref E e.2.1 - (rowFilter P e.2.1).length := by omega
          have hRF : rowFilter (P ++ [e]) e.2.1 = rowFilter P e.2.1 ++ [e] := by
            rw [rowFilter_append]
            congr 1
            rw [rowFilter, List.filter_cons, if_pos (by simp)]
            rfl
          constructor
          · rw [hst21, hb, hRF, List.map_append, List.reverse_append,
              slice_set_cons hposlt hposlen2 e.1,
              slice_set_outside (Or.inl (by omega)), hsucc,
              (hcontent e.2.1 hr).1]
            rfl
          · rw [hst22, hb, hRF, List.map_append, List.reverse_append,
              slice_set_cons hposlt hposlen3 e.2.2,
              slice_set_outside (Or.inl (by omega)), hsucc,
              (hcontent e.2.1 hr).2]
            rfl
        · have hlist : rowFilter (P ++ [e]) r = rowFilter P r := by
            rw [rowFilter_append]
            have hnil : rowFilter [e] r = [] := by
              rw [rowFilter, List.filter_cons, if_neg (by simp [hre])]
              rfl
            rw [hnil, List.append_nil]
          have houtside : st.1.getD e.2.1 0 - 1 < rowPref E r - (rowFilter P r).length
              ∨ rowPref E r ≤ st.1.getD e.2.1 0 - 1 := by
            have hk := hkPle r
            rcases Nat.lt_or_ge e.2.1 r with hlt | hge
            · have hadd := rowPref_add_counts_le E hlt
              left
              omega
            · have hlt' : r < e.2.1 := by omega
              have hadd := rowPref_add_counts_le E hlt'
              right
              omega
          rw [hlist]
          constructor
          · rw [hst21, slice_set_outside houtside]
            exact (hcontent r hr).1
          · rw [hst22, slice_set_outside houtside]
            exact (hcontent r hr).2

theorem scatterPhase_eq_flat (m : SparseMat) (ptr : List Nat) :
    scatterPhase m ptr
      = m.entries.foldl (fun s e => scatterStep s e.1 (e.2.1, e.2.2))
        (ptr, List.replicate m.nnz 0, List.replicate m.nnz AbnormalFraction.zero) := by
  rw [scatterPhase, entries, foldl_flatMap]
  congr 1
  funext s c
  rw [List.foldl_map]

theorem transpose_components {m : SparseMat} (hm : WF m) :
    (m.transpose).n_rows = m.cols ∧
    (m.transpose).indptr.length = m.rows + 1 ∧
    (m.transpose).indices.length = m.nnz ∧
    (m.transpose).data.length = m.nnz ∧
    (∀ r, r < m.rows + 1 →
      (m.transpose).indptr.getD r 0
        = if r = m.rows then m.nnz
          else rowPref m.entries r - (rowFilter m.entries r).length) ∧
    (∀ r, r < m.rows →
      (m.transpose).colEntries r
        = (rowFilter m.entries r).reverse.map (fun e => (e.1, e.2.2))) := by
  have hElen : m.entries.length = m.nnz := entries_length hm
  have hrowsE : ∀ e ∈ m.entries, e.2.1 < m.rows := entries_row_lt hm
  have hp2len : (prefixPhase (countPhase m)).length = m.rows + 1 := by
    rw [prefixPhase_length, countPhase_length hm.2.2.2.2.1]
  have hinv := scatter_fold_invariant m.rows m.entries hrowsE m.entries []
    (by rw [List.nil_append])
    (prefixPhase (countPhase m), List.replicate m.nnz 0,
      List.replicate m.nnz AbnormalFraction.zero)
    hp2len
    (by rw [List.length_replicate, hElen])
    (by rw [List.length_replicate, hElen])
    (fun r hr => by
      show (prefixPhase (countPhase m)).getD r 0 + (rowFilter [] r).length = _
      rw [prefixPhase_getD hm r hr]
      rfl)
    (fun r hr => by
      constructor <;>
        · rw [show rowFilter [] r = [] from rfl]
          rw [List.length_nil, Nat.sub_zero, List.map_nil, List.reverse_nil]
          exact slice_nil_of_le (le_refl _) _)
  rw [← scatterPhase_eq_flat m (prefixPhase (countPhase m))] at hinv
  obtain ⟨hF1, hF2, hF3, hFptr, hFcontent⟩ := hinv
  have hout_indptr : (m.transpose).indptr
      = (scatterPhase m (prefixPhase (countPhase m))).1.set m.rows m.nnz := by
    show (scatterPhase m (prefixPhase (countPhase m))).1.set
      ((scatterPhase m (prefixPhase (countPhase m))).1.length - 1) m.nnz = _
    rw [hF1]
    rfl
  have hcounts_le : ∀ r, (rowFilter m.entries r).length ≤ rowPref m.entries r :=
    fun r => counts_le_rowPref m.entries r
  have hgetD : ∀ r, r < m.rows + 1 →
      (m.transpose).indptr.getD r 0
        = if r = m.rows then m.nnz
          else rowPref m.entries r - (rowFilter m.entries r).length := by
    intro r hr
    rw [hout_indptr]
    by_cases hrR : r = m.rows
    · subst hrR
      rw [getD_set_lt (by omega), if_pos rfl]
    · rw [getD_set_ne _ (fun h => hrR h.symm), if_neg hrR]
      have := hFptr r hr
      omega
  have hllen : (m.transpose).indptr.length = m.rows + 1 := by
    rw [hout_indptr, List.length_set, hF1]
  refine ⟨rfl, hllen, by rw [show (m.transpose).indices
      = (scatterPhase m (prefixPhase (countPhase m))).2.1 from rfl, hF2, hElen],
    by rw [show (m.transpose).data
      = (scatterPhase m (prefixPhase (countPhase m))).2.2 from rfl, hF3, hElen],
    hgetD, ?_⟩
  intro r hr
  have hnnz_pref : m.nnz = rowPref m.entries m.rows := by
    rw [← hElen, length_eq_rowPref m.entries m.rows hrowsE]
  have hcounts_rows : (rowFilter m.entries m.rows).length = 0 := by
    rw [rowFilter_bound_nil m.entries m.rows hrowsE]
    rfl
  have ha : (m.transpose).indptr.getD r 0
      = rowPref m.entries r - (rowFilter m.entries r).length := by
    rw [hgetD r (by omega), if_neg (by omega)]
  have hb : (m.transpose).indptr.getD (r + 1) 0 = rowPref m.entries r := by
    rw [hgetD (r + 1) (by omega)]
    by_cases hr1 : r + 1 = m.rows
    · rw [if_pos hr1, hnnz_pref, ← hr1, rowPref_succ]
      have := hcounts_rows
      rw [← hr1] at this
      omega
    · rw [if_neg hr1]
      have hsucc := rowPref_succ m.entries r
      have hle := hcounts_le (r + 1)
      omega
  have hcr : (m.transpose).col_rows r
      = ((rowFilter m.entries r).map (fun e => e.1)).reverse := by
    rw [col_rows, ha, hb]
    exact (hFcontent r hr).1
  have hcd : (m.transpose).col_data r
      = ((rowFilter m.entries r).map (fun e => e.2.2)).reverse := by
    rw [col_data, ha, hb]
    exact (hFcontent r hr).2
  rw [colEntries, hcr, hcd, ← List.map_reverse, ← List.map_reverse, List.zip_map']

theorem transpose_cols {m : SparseMat} (hm : WF m) : (m.transpose).cols = m.rows := by
  rw [cols, (transpose_components hm).2.1]
  omega

theorem sum_map_single (n c : Nat) (g : Nat → Nat) (h0 : ∀ j, j ≠ c → g j = 0) :
    ((List.range n).map g).sum = if c < n then g c else 0 := by
  induction n with
  | zero => simp
  | succ n ih =>
      rw [List.range_succ, List.map_append, List.sum_append, ih]
      have hsing : (List.map g [n]).sum = g n := by simp
      rw [hsing]
      by_cases hc : c = n
      · subst hc
        rw [if_neg (by omega), if_pos (by omega)]
        omega
      · rw [h0 n (fun h => hc h.symm)]
        by_cases hcn : c < n
        · rw [if_pos hcn, if_pos (by omega)]
          omega
        · rw [if_neg hcn, if_neg (by omega)]

theorem colEntries_nil_of_le {m : SparseMat} {c : Nat} (h : m.cols ≤ c) :
    m.colEntries c = [] := by
  have hd : m.indptr.getD (c + 1) 0 = 0 := by
    apply List.getD_eq_default
    rw [cols] at h
    omega
  rw [colEntries, col_rows, hd, slice_nil_of_le (Nat.zero_le _)]
  rfl

theorem count_colEntries_entries {m : SparseMat} (hm : WF m) (c r : Nat)
    (v : AbnormalFraction) :
    (m.colEntries c).count (r, v) = m.entries.count (c, r, v) := by
  rw [entries, List.count_flatMap]
  have hterm : ∀ j, j ≠ c → (List.count ((c, r, v) : Nat × Nat × AbnormalFraction) ∘
      fun c' => (m.colEntries c').map (fun rv => (c', rv.1, rv.2))) j = 0 := by
    intro j hj
    simp only [Function.comp_apply]
    rw [List.count_eq_zero]
    intro hmem
    rw [List.mem_map] at hmem
    obtain ⟨rv, -, heq⟩ := hmem
    exact hj (congrArg Prod.fst heq)
  rw [sum_map_single m.cols c _ hterm]
  by_cases hc : c < m.cols
  · rw [if_pos hc]
    simp only [Function.comp_apply]
    have htag : ∀ l : List (Nat × AbnormalFraction),
        (l.map (fun rv => ((c, rv.1, rv.2) : Nat × Nat × AbnormalFraction))).count (c, r, v)
          = l.count (r, v) := by
      intro l
      induction l with
      | nil => rfl
      | cons a l ih =>
          rw [List.map_cons, List.count_cons, List.count_cons, ih]
          congr 1
          obtain ⟨a1, a2⟩ := a
          by_cases ha : a1 = r ∧ a2 = v
          · rw [if_pos (by simp [ha.1, ha.2]), if_pos (by simp [ha.1, ha.2])]
          · rw [if_neg (by simp [Prod.ext_iff]; tauto),
              if_neg (by simp [Prod.ext_iff]; tauto)]
    exact (htag (m.colEntries c)).symm
  · rw [if_neg hc, colEntries_nil_of_le (by omega)]
    rfl

theorem count_colEntries_transpose {m : SparseMat} (hm : WF m) (r c : Nat)
    (v : AbnormalFraction) :
    ((m.transpose).colEntries r).count (c, v) = (m.colEntries c).count (r, v) := by
  rcases Nat.lt_or_ge r m.rows with hr | hr
  · rw [(transpose_components hm).2.2.2.2.2 r hr, List.map_reverse,
      List.count_reverse, count_map_rowFilter, ← count_colEntries_entries hm]
  · rw [colEntries_nil_of_le (by rw [transpose_cols hm]; omega), List.count_nil]
    symm
    rw [List.count_eq_zero]
    intro hmem
    rw [colEntries] at hmem
    have hrmem : r ∈ m.col_rows c := (List.of_mem_zip hmem).1
    have hrind : r ∈ m.indices := List.Sublist.mem hrmem (slice_sublist ..)
    have := hm.2.2.2.2.2 r hrind
    rw [← rows] at this
    omega

theorem scatter_fold_indices_mem (E : List (Nat × Nat × AbnormalFraction))
    (Q : Nat → Prop) :
    ∀ st : List Nat × List Nat × List AbnormalFraction,
    (∀ x ∈ st.2.1, Q x) → (∀ e ∈ E, Q e.1) →
    ∀ x ∈ (E.foldl (fun s e => scatterStep s e.1 (e.2.1, e.2.2)) st).2.1, Q x := by
  induction E with
  | nil =>
      intro st hst _ x hx
      exact hst x hx
  | cons e E ih =>
      intro st hst hE x hx
      rw [List.foldl_cons] at hx
      refine ih _ (fun y hy => ?_) (fun e' he' => hE e' (List.mem_cons_of_mem _ he')) x hx
      rcases List.mem_or_eq_of_mem_set hy with hy' | hy'
      · exact hst y hy'
      · rw [hy']
        exact hE e (List.mem_cons_self ..)

theorem transpose_WF {m : SparseMat} (hm : WF m) : WF m.transpose := by
  obtain ⟨hc0, hlen, hleni, hlend, hgetD, -⟩ := transpose_components hm
  have hrowsE : ∀ e ∈ m.entries, e.2.1 < m.rows := entries_row_lt hm
  have hElen : m.entries.length = m.nnz := entries_length hm
  have hnnz_pref : m.nnz = rowPref m.entries m.rows := by
    rw [← hElen, length_eq_rowPref m.entries m.rows hrowsE]
  have hcounts_le : ∀ r, (rowFilter m.entries r).length ≤ rowPref m.entries r :=
    fun r => counts_le_rowPref m.entries r
  refine ⟨List.length_pos.mp (by rw [hlen]; omega), ?_, ?_, ?_, hleni.trans hlend.symm, ?_⟩
  · rw [hgetD 0 (by omega)]
    by_cases h0 : 0 = m.rows
    · rw [if_pos h0]
      have hE : m.entries = [] := by
        rw [List.eq_nil_iff_forall_not_mem]
        intro e he
        have := hrowsE e he
        omega
      rw [← hElen, hE]
      rfl
    · rw [if_neg h0]
      have : rowPref m.entries 0 = (rowFilter m.entries 0).length := by
        rw [rowPref, Finset.sum_range_one]
      omega
  · rw [List.chain'_iff_get]
    intro i hi
    rw [hlen] at hi
    rw [← getD_of_lt _ (by rw [hlen]; omega) 0, ← getD_of_lt _ (by rw [hlen]; omega) 0]
    rw [hgetD i (by omega), hgetD (i + 1) (by omega), if_neg (by omega)]
    have hsucc := rowPref_succ m.entries i
    have hci := hcounts_le i
    by_cases hi1 : i + 1 = m.rows
    · rw [if_pos hi1]
      have hmono := rowPref_mono m.entries (show i ≤ m.rows from by omega)
      omega
    · rw [if_neg hi1]
      have hc1 := hcounts_le (i + 1)
      omega
  · have hl1 : (m.transpose).indptr.length - 1 = m.rows := by
      rw [hlen]
      omega
    rw [hl1, hgetD m.rows (by omega), if_pos rfl, hleni]
  · intro x hx
    rw [hc0]
    have hmem : ∀ y ∈ (m.transpose).indices, y < m.cols ∨ (y = 0 ∧ 0 < m.nnz) := by
      intro y hy
      have hy' : y ∈ (scatterPhase m (prefixPhase (countPhase m))).2.1 := hy
      rw [scatterPhase_eq_flat] at hy'
      refine scatter_fold_indices_mem m.entries
        (fun z => z < m.cols ∨ (z = 0 ∧ 0 < m.nnz)) _ (fun z hz => ?_)
        (fun e he => Or.inl (mem_entries he).1) y hy'
      rw [List.mem_replicate] at hz
      right
      refine ⟨hz.2, ?_⟩
      have := hz.1
      omega
    rcases hmem x hx with h | ⟨hx0, hnnz⟩
    · exact h
    · subst hx0
      have hEne : m.entries ≠ [] := by
        intro hE
        rw [hE] at hElen
        simp at hElen
        omega
      obtain ⟨e, he⟩ := List.exists_mem_of_ne_nil m.entries hEne
      have := (mem_entries he).1
      omega

/-- C7: for a matrix whose columns have all been sealed, the double
transpose has the same logical entries as the original: every (row,
value) pair occurs in each column of `transpose (transpose m)` exactly as
often as in that column of `m`, irrespective of physical storage order. -/
theorem transpose_transpose_entries (m : SparseMat) (hm : WF m) :
    ∀ c r v, ((m.transpose.transpose).colEntries c).count (r, v)
      = (m.colEntries c).count (r, v) := by
  intro c r v
  rw [count_colEntries_transpose (transpose_WF hm) c r v,
    count_colEntries_transpose hm r c v]

/-- The example matrix of the repository's `mat_transpose` unit test. -/
def testMat : SparseMat :=
  ⟨2, [0, 2, 3, 4], [0, 1, 1, 0],
   [.Normal (11/10), .Normal (22/10), .Normal (33/10), .Normal (44/10)]⟩

/-- Witness for C7: the unit-test matrix is wellformed and its double
transpose preserves the entry count of a concrete (row, value) pair in
column 0. -/
theorem transpose_transpose_entries_witness :
    WF testMat ∧
    ((testMat.transpose.transpose).colEntries 0).count (0, .Normal (11/10))
      = (testMat.colEntries 0).count (0, .Normal (11/10)) := by
  have hwf : WF testMat :=
    ⟨by decide, by decide, by norm_num [testMat, List.chain'_cons], by decide,
     by decide, by decide⟩
  exact ⟨hwf, transpose_transpose_entries testMat hwf 0 0 (.Normal (11/10))⟩

end SparseMat

end Ebi
